import Mathlib

/-!
Verification development for the SCHBR hypergraph recommendation model
(`model.py`).  Sparse scipy/torch matrices are modelled as a shape-carrying
entry function over ℚ; the functions `normalize_HyperGraph`,
`Split_HyperGraph`, `mix_Hypergraph` and the methods of the `SCHBR` class are
translated one-to-one from the source.
-/

/-- Shape-carrying matrix model over ℚ.  scipy/torch matrices carry an
explicit `shape`; statements about a matrix only ever constrain its entries at
in-bounds positions. -/
structure SMat where
  rows : ℕ
  cols : ℕ
  entry : ℕ → ℕ → ℚ

instance : Inhabited SMat := ⟨⟨0, 0, fun _ _ => 0⟩⟩

/-- Matrix transpose, as in `H.T` / `ub_graph.T`. -/
def SMat.transpose (A : SMat) : SMat :=
  ⟨A.cols, A.rows, fun i j => A.entry j i⟩

/-- Matrix product, as in the `@` operator of scipy/torch: the inner sum
ranges over the column count of the left factor. -/
def SMat.mul (A B : SMat) : SMat :=
  ⟨A.rows, B.cols, fun i j => ∑ k ∈ Finset.range A.cols, A.entry i k * B.entry k j⟩

/-- Entrywise sum of two same-shaped matrices (torch `+`). -/
def SMat.add (A B : SMat) : SMat :=
  ⟨A.rows, A.cols, fun i j => A.entry i j + B.entry i j⟩

/-- Division of a matrix by a scalar (torch `t / 2`). -/
def SMat.sdiv (A : SMat) (c : ℚ) : SMat :=
  ⟨A.rows, A.cols, fun i j => A.entry i j / c⟩

/-- Vertical concatenation of two blocks (`sp.vstack` / `torch.cat(dim=0)`),
with the shape it has when the column counts agree. -/
def SMat.vcat (A B : SMat) : SMat :=
  ⟨A.rows + B.rows, A.cols, fun i j => if i < A.rows then A.entry i j else B.entry (i - A.rows) j⟩

/-- Horizontal concatenation of two blocks (`sp.hstack`), with the shape it
has when the row counts agree. -/
def SMat.hcat (A B : SMat) : SMat :=
  ⟨A.rows, A.cols + B.cols, fun i j => if j < A.cols then A.entry i j else B.entry i (j - A.cols)⟩

/-- Dimension-checked `sp.vstack`: scipy raises a `ValueError` when the column
counts of the stacked blocks differ. -/
def vstackE (A B : SMat) : Except String SMat :=
  if A.cols = B.cols then .ok (A.vcat B) else .error "vstack: incompatible dimensions"

/-- Dimension-checked `sp.hstack`: scipy raises a `ValueError` when the row
counts of the stacked blocks differ. -/
def hstackE (A B : SMat) : Except String SMat :=
  if A.rows = B.rows then .ok (A.hcat B) else .error "hstack: incompatible dimensions"

/-- Concatenation of a list of row blocks in order (`torch.cat([...], dim=0)`
over the partitioned products). -/
def vcatList : List SMat → SMat
  | [] => ⟨0, 0, fun _ _ => 0⟩
  | A :: L => A.vcat (vcatList L)

/-- Row sum of row `i` (`H.sum(axis=1)` at index `i`). -/
def rowSum (H : SMat) (i : ℕ) : ℚ := ∑ j ∈ Finset.range H.cols, H.entry i j

/-- Column sum of column `j` (`H.sum(axis=0)` at index `j`). -/
def colSum (H : SMat) (j : ℕ) : ℚ := ∑ i ∈ Finset.range H.rows, H.entry i j

/-- Diagonal matrix built from an entry function (`sp.diags`). -/
def diags (n : ℕ) (d : ℕ → ℚ) : SMat :=
  ⟨n, n, fun i j => if i = j then d i else 0⟩

/-- The stabilizing constant `1e-8` from `normalize_HyperGraph`. -/
def eps : ℚ := 1 / 100000000

/-- Translation of `normalize_HyperGraph(H)`.  The square root of the
floating-point code is abstracted as a parameter `s`; the code computes
`D_v = sp.diags(1 / (np.sqrt(H.sum(axis=1)) + 1e-8))`,
`D_e = sp.diags(1 / (np.sqrt(H.sum(axis=0)) + 1e-8))` and returns
`D_v @ H @ D_e @ H.T @ D_v`. -/
def normalize_HyperGraph (s : ℚ → ℚ) (H : SMat) : SMat :=
  let D_v := diags H.rows fun i => 1 / (s (rowSum H i) + eps)
  let D_e := diags H.cols fun j => 1 / (s (colSum H j) + eps)
  ((((D_v.mul H).mul D_e).mul H.transpose).mul D_v)

/-- Python row slice `H[a : b]` (with `a ≤ b ≤ H.shape[0]` at every use in
`Split_HyperGraph`). -/
def rowSlice (H : SMat) (a b : ℕ) : SMat :=
  ⟨b - a, H.cols, fun i j => H.entry (a + i) j⟩

/-- Translation of `Split_HyperGraph(H, device, split_num=16)`: the loop
appends `H[length*i : length*(i+1)]` for each `i`, except the last partition
which is `H[length*(split_num-1) : H.shape[0]]`; `SparseTensor.from_scipy`
and `.to(device)` do not change the matrix. -/
def Split_HyperGraph (H : SMat) (split_num : ℕ := 16) : List SMat :=
  (List.range split_num).map fun i =>
    let length := H.rows / split_num
    if i = split_num - 1 then rowSlice H (length * i) H.rows
    else rowSlice H (length * i) (length * (i + 1))

/-- The in-place thresholding loops of `mix_Hypergraph`: every stored (i.e.
structurally nonzero) entry `v` is rewritten to `1` if `v > threshold` and to
`0` otherwise; entries outside the stored pattern are untouched and stay `0`.
In the value model the stored pattern of the co-occurrence products is the
support, so an entry with value `0` stays `0` and a nonzero entry is
binarized. -/
def binarizeMat (threshold : ℚ) (M : SMat) : SMat :=
  ⟨M.rows, M.cols, fun i j =>
    if M.entry i j = 0 then 0 else if threshold < M.entry i j then 1 else 0⟩

/-- Translation of `mix_Hypergraph(raw_graph, threshold=10)`:
`uu_graph = ub @ ub.T` and `bb_graph = ub.T @ ub` thresholded in place, then
`H_i = sp.vstack((ui, bi))`,
`H_ub = sp.hstack((sp.vstack((uu, ub.T)), sp.vstack((ub, bb))))` and
`H = sp.hstack((H_i, H_ub))`, with the scipy stacking dimension checks. -/
def mix_Hypergraph (raw_graph : SMat × SMat × SMat) (threshold : ℚ := 10) :
    Except String SMat :=
  let ui_graph := raw_graph.1
  let bi_graph := raw_graph.2.1
  let ub_graph := raw_graph.2.2
  let uu_graph := binarizeMat threshold (ub_graph.mul ub_graph.transpose)
  let bb_graph := binarizeMat threshold (ub_graph.transpose.mul ub_graph)
  do
    let H_i ← vstackE ui_graph bi_graph
    let left ← vstackE uu_graph ub_graph.transpose
    let right ← vstackE ub_graph bb_graph
    let H_ub ← hstackE left right
    hstackE H_i H_ub

/-- State of the `SCHBR` module: counts taken from the raw relations, the
partitioned normalized operator, the learnable tables and the configuration.
The dropout probability is not stored; dropout is modelled as a function
passed to each call (identity in eval mode). -/
structure SCHBR where
  num_users : ℕ
  num_bundles : ℕ
  num_items : ℕ
  atom_graph : List SMat
  users_feature : SMat
  bundles_feature : SMat
  user_bound : SMat
  embed_L2_norm : ℚ

/-- Translation of `SCHBR.__init__(raw_graph, device, dp, l2_norm, emb_size)`:
counts are read off the raw shapes, `H = mix_Hypergraph(raw_graph)` (using the
default threshold), `atom_graph = Split_HyperGraph(normalize_HyperGraph(H),
device)` (using the default split count 16).  The random normal
initialization of the three parameter tensors is modelled by taking the
sampled tables `users0`, `bundles0`, `bound0` as inputs; `s` abstracts the
square root used by normalization. -/
def SCHBR.init (raw_graph : SMat × SMat × SMat) (s : ℚ → ℚ) (l2_norm : ℚ)
    (users0 bundles0 bound0 : SMat) : Except String SCHBR := do
  let H ← mix_Hypergraph raw_graph
  .ok { num_users := raw_graph.2.2.rows
        num_bundles := raw_graph.2.2.cols
        num_items := raw_graph.1.cols
        atom_graph := Split_HyperGraph (normalize_HyperGraph s H)
        users_feature := users0
        bundles_feature := bundles0
        user_bound := bound0
        embed_L2_norm := l2_norm }

/-- Translation of `SCHBR.propagate()`:
`embed_0 = torch.cat([users_feature, bundles_feature], dim=0)`,
`embed_1 = torch.cat([G @ embed_0 for G in atom_graph], dim=0)`,
`all_embeds = embed_0 / 2 + drop(embed_1) / 2`, then
`torch.split(all_embeds, [num_users, num_bundles], dim=0)`. -/
def SCHBR.propagate (m : SCHBR) (drop : SMat → SMat) : SMat × SMat :=
  let embed_0 := m.users_feature.vcat m.bundles_feature
  let embed_1 := vcatList (m.atom_graph.map fun G => G.mul embed_0)
  let all_embeds := (embed_0.sdiv 2).add ((drop embed_1).sdiv 2)
  (rowSlice all_embeds 0 m.num_users,
   rowSlice all_embeds m.num_users (m.num_users + m.num_bundles))

/-- Rank-3 tensor model for the batched embedding slices used by
`predict`. -/
structure T3 where
  d0 : ℕ
  d1 : ℕ
  d2 : ℕ
  entry : ℕ → ℕ → ℕ → ℚ

/-- Translation of `SCHBR.predict`: `torch.sum(users_feature *
bundles_feature, 2)`, an elementwise product summed over the embedding
dimension. -/
def SCHBR.predict (uE bE : T3) : SMat :=
  ⟨uE.d0, uE.d1, fun k b => ∑ j ∈ Finset.range uE.d2, uE.entry k b j * bE.entry k b j⟩

/-- Sum of squares of the in-bounds entries of a matrix (`(t ** 2).sum()`). -/
def sumSq (A : SMat) : ℚ :=
  ∑ i ∈ Finset.range A.rows, ∑ j ∈ Finset.range A.cols, A.entry i j ^ 2

/-- Translation of `SCHBR.regularize`: `embed_L2_norm * ((users_feature **
2).sum() + (bundles_feature ** 2).sum())`. -/
def SCHBR.regularize (m : SCHBR) (users_feature bundles_feature : SMat) : ℚ :=
  m.embed_L2_norm * (sumSq users_feature + sumSq bundles_feature)

/-- Row gather `F[users]` for a batch of `n` indices. -/
def gatherRows (F : SMat) (n : ℕ) (idx : ℕ → ℕ) : SMat :=
  ⟨n, F.cols, fun k j => F.entry (idx k) j⟩

/-- Translation of `SCHBR.forward(users, bundles)` for a batch of `nBatch`
users (`users` has shape `(nBatch, 1)`, modelled by its index function) and a
`(nBatch, nb)` tensor of bundle indices:
`users_embedding = users_feature[users].expand(-1, bundles.shape[1], -1)`,
`bundles_embedding = bundles_feature[bundles]`,
`pred = predict(users_embedding, bundles_embedding)`,
`loss = regularize(users_feature, bundles_feature)`,
`user_score_bound = users_feature[users] @ user_bound` (returned with its
batch dimension flattened to `(nBatch, 1)`). -/
def SCHBR.forward (m : SCHBR) (drop : SMat → SMat) (nBatch nb : ℕ)
    (users : ℕ → ℕ) (bundles : ℕ → ℕ → ℕ) : SMat × SMat × ℚ :=
  let p := m.propagate drop
  let users_feature := p.1
  let bundles_feature := p.2
  let users_embedding : T3 :=
    ⟨nBatch, nb, users_feature.cols, fun k _b j => users_feature.entry (users k) j⟩
  let bundles_embedding : T3 :=
    ⟨nBatch, nb, bundles_feature.cols, fun k b j => bundles_feature.entry (bundles k b) j⟩
  let pred := SCHBR.predict users_embedding bundles_embedding
  let loss := m.regularize users_feature bundles_feature
  let user_score_bound := (gatherRows users_feature nBatch users).mul m.user_bound
  (pred, user_score_bound, loss)

/-- Translation of `SCHBR.evaluate(propagate_result, users)`:
`users_feature[users] @ bundles_feature.T`. -/
def SCHBR.evaluate (propagate_result : SMat × SMat) (n : ℕ) (users : ℕ → ℕ) : SMat :=
  (gatherRows propagate_result.1 n users).mul propagate_result.2.transpose

theorem SMat.mul_entry (A B : SMat) (i j : ℕ) :
    (A.mul B).entry i j = ∑ k ∈ Finset.range A.cols, A.entry i k * B.entry k j := rfl

theorem SMat.vcat_entry_left (A B : SMat) (i j : ℕ) (h : i < A.rows) :
    (A.vcat B).entry i j = A.entry i j := by
  simp [SMat.vcat, h]

theorem SMat.vcat_entry_right (A B : SMat) (i j : ℕ) (h : A.rows ≤ i) :
    (A.vcat B).entry i j = B.entry (i - A.rows) j := by
  simp [SMat.vcat, Nat.not_lt.mpr h]

theorem chain_le (g : ℕ → ℕ) (a : ℕ) :
    ∀ k : ℕ, (∀ t, a ≤ t → t < a + k → g t ≤ g (t + 1)) → g a ≤ g (a + k) := by
  intro k
  induction k with
  | zero => intro _; simp
  | succ k ih =>
    intro h
    have h1 : g a ≤ g (a + k) := ih fun t ht ht2 => h t ht (by omega)
    have h2 : g (a + k) ≤ g (a + k + 1) := h (a + k) (by omega) (by omega)
    calc g a ≤ g (a + k) := h1
    _ ≤ g (a + (k + 1)) := by rw [show a + (k + 1) = a + k + 1 by omega]; exact h2

theorem vcat_slices (H : SMat) (g : ℕ → ℕ) (m : ℕ) : ∀ s : ℕ,
    (∀ t, s ≤ t → t < s + m → g t ≤ g (t + 1)) →
    (vcatList ((List.range m).map fun t => rowSlice H (g (s + t)) (g (s + t + 1)))).rows
        = g (s + m) - g s ∧
    ∀ i j, i < g (s + m) - g s →
      (vcatList ((List.range m).map fun t => rowSlice H (g (s + t)) (g (s + t + 1)))).entry i j
        = H.entry (g s + i) j := by
  induction m with
  | zero => intro s _; simp [vcatList]
  | succ m ih =>
    intro s hmono
    have hlist : ((List.range (m + 1)).map fun t => rowSlice H (g (s + t)) (g (s + t + 1)))
        = rowSlice H (g s) (g (s + 1)) ::
          ((List.range m).map fun t => rowSlice H (g (s + 1 + t)) (g (s + 1 + t + 1))) := by
      rw [List.range_succ_eq_map, List.map_cons, List.map_map]
      have htail : List.map ((fun t => rowSlice H (g (s + t)) (g (s + t + 1))) ∘ Nat.succ)
            (List.range m)
          = List.map (fun t => rowSlice H (g (s + 1 + t)) (g (s + 1 + t + 1)))
            (List.range m) := by
        apply List.map_congr_left
        intro t ht
        simp only [Function.comp_apply, Nat.succ_eq_add_one]
        rw [show s + (t + 1) = s + 1 + t by omega]
      rw [htail]
      simp
    have hmono1 : ∀ t, s + 1 ≤ t → t < s + 1 + m → g t ≤ g (t + 1) :=
      fun t ht ht2 => hmono t (by omega) (by omega)
    obtain ⟨ihrows, ihentry⟩ := ih (s + 1) hmono1
    have h01 : g s ≤ g (s + 1) := hmono s (le_refl s) (by omega)
    have h1m : g (s + 1) ≤ g (s + 1 + m) := chain_le g (s + 1) m hmono1
    have hrows : (vcatList ((List.range (m + 1)).map fun t =>
        rowSlice H (g (s + t)) (g (s + t + 1)))).rows = g (s + (m + 1)) - g s := by
      rw [hlist]
      show (g (s + 1) - g s) + _ = _
      rw [ihrows, show s + (m + 1) = s + 1 + m by omega]
      omega
    refine ⟨hrows, fun i j hi => ?_⟩
    rw [hlist]
    show (SMat.vcat _ _).entry i j = _
    by_cases hcase : i < g (s + 1) - g s
    · rw [SMat.vcat_entry_left _ _ _ _ hcase]
      rfl
    · rw [SMat.vcat_entry_right _ _ _ _ (Nat.not_lt.mp hcase)]
      rw [show (rowSlice H (g s) (g (s + 1))).rows = g (s + 1) - g s from rfl]
      rw [ihentry (i - (g (s + 1) - g s)) j
        (by rw [show s + (m + 1) = s + 1 + m by omega] at hi; omega)]
      rw [show g (s + 1) + (i - (g (s + 1) - g s)) = g s + i by omega]

theorem split_offsets_mono (H : SMat) (P : ℕ) :
    ∀ t, 0 ≤ t → t < 0 + P →
      (fun t => if t < P then H.rows / P * t else H.rows) t
        ≤ (fun t => if t < P then H.rows / P * t else H.rows) (t + 1) := by
  intro t _ ht
  simp only [Nat.zero_add] at ht
  simp only [ht, if_true]
  by_cases h2 : t + 1 < P
  · simp only [h2, if_true]
    exact Nat.mul_le_mul_left _ (by omega)
  · simp only [h2, if_false]
    calc H.rows / P * t ≤ H.rows / P * P := Nat.mul_le_mul_left _ (by omega)
    _ ≤ H.rows := Nat.div_mul_le_self H.rows P

theorem split_eq_slices (H : SMat) (P : ℕ) (hP : 1 ≤ P) :
    Split_HyperGraph H P = (List.range P).map fun t =>
      rowSlice H ((fun t => if t < P then H.rows / P * t else H.rows) (0 + t))
        ((fun t => if t < P then H.rows / P * t else H.rows) (0 + t + 1)) := by
  refine List.map_congr_left fun t htmem => ?_
  have ht : t < P := List.mem_range.mp htmem
  simp only [Nat.zero_add, ht, if_true]
  show (if t = P - 1 then rowSlice H (H.rows / P * t) H.rows
      else rowSlice H (H.rows / P * t) (H.rows / P * (t + 1))) = _
  split_ifs with h1 h2 <;> first | rfl | omega

theorem split_reconstruct (H : SMat) (P : ℕ) (hP : 1 ≤ P) :
    (vcatList (Split_HyperGraph H P)).rows = H.rows ∧
    ∀ i j, i < H.rows → (vcatList (Split_HyperGraph H P)).entry i j = H.entry i j := by
  have h := vcat_slices H (fun t => if t < P then H.rows / P * t else H.rows) P 0
    (split_offsets_mono H P)
  rw [← split_eq_slices H P hP] at h
  have hg0 : (fun t => if t < P then H.rows / P * t else H.rows) 0 = 0 := by
    simp [hP, Nat.lt_of_lt_of_le Nat.zero_lt_one hP]
  have hgP : (fun t => if t < P then H.rows / P * t else H.rows) (0 + P) = H.rows := by
    simp
  rw [hg0, hgP, Nat.sub_zero] at h
  exact ⟨h.1, fun i j hi => by rw [h.2 i j hi, Nat.zero_add]⟩

theorem vcatList_cols (c : ℕ) : ∀ L : List SMat, (∀ A ∈ L, A.cols = c) → L ≠ [] →
    (vcatList L).cols = c := by
  intro L
  induction L with
  | nil => intro _ h; exact absurd rfl h
  | cons A L ih =>
    intro hc _
    exact hc A (List.mem_cons_self A L)

theorem vcatList_map_mul (X : SMat) (c : ℕ) : ∀ L : List SMat, (∀ A ∈ L, A.cols = c) →
    (vcatList (L.map fun A => A.mul X)).rows = (vcatList L).rows ∧
    ∀ i j, i < (vcatList L).rows →
      (vcatList (L.map fun A => A.mul X)).entry i j
        = ∑ k ∈ Finset.range c, (vcatList L).entry i k * X.entry k j := by
  intro L
  induction L with
  | nil =>
    intro _
    refine ⟨rfl, fun i j hi => ?_⟩
    simp only [vcatList] at hi
    omega
  | cons A L ih =>
    intro hc
    obtain ⟨ihrows, ihentry⟩ := ih fun B hB => hc B (List.mem_cons_of_mem A hB)
    have hA : A.cols = c := hc A (List.mem_cons_self A L)
    constructor
    · show (A.mul X).rows + _ = A.rows + _
      rw [ihrows]
      rfl
    · intro i j hi
      show ((A.mul X).vcat (vcatList (L.map fun A => A.mul X))).entry i j = _
      by_cases hcase : i < A.rows
      · rw [SMat.vcat_entry_left _ _ _ _ (show i < (A.mul X).rows from hcase)]
        rw [SMat.mul_entry, hA]
        refine Finset.sum_congr rfl fun k _ => ?_
        rw [show (vcatList (A :: L)).entry i k = ((A.vcat (vcatList L))).entry i k from rfl]
        rw [SMat.vcat_entry_left _ _ _ _ hcase]
      · rw [SMat.vcat_entry_right (A.mul X) _ i j
          (show (A.mul X).rows ≤ i from Nat.not_lt.mp hcase)]
        rw [show (A.mul X).rows = A.rows from rfl]
        have hi2 : i - A.rows < (vcatList L).rows := by
          have : i < A.rows + (vcatList L).rows := hi
          omega
        rw [ihentry (i - A.rows) j hi2]
        refine Finset.sum_congr rfl fun k _ => ?_
        rw [show (vcatList (A :: L)).entry i k = ((A.vcat (vcatList L))).entry i k from rfl]
        rw [SMat.vcat_entry_right _ _ _ _ (Nat.not_lt.mp hcase)]

theorem split_cols (H : SMat) (P : ℕ) :
    ∀ A ∈ Split_HyperGraph H P, A.cols = H.cols := by
  intro A hA
  simp only [Split_HyperGraph, List.mem_map] at hA
  obtain ⟨i, _, hi⟩ := hA
  by_cases h : i = P - 1 <;> simp [h] at hi <;> rw [← hi] <;> rfl

theorem split_length (H : SMat) (P : ℕ) : (Split_HyperGraph H P).length = P := by
  simp [Split_HyperGraph]

theorem split_getD (H : SMat) (P i : ℕ) (hi : i < P) :
    (Split_HyperGraph H P).getD i default
      = if i = P - 1 then rowSlice H (H.rows / P * i) H.rows
        else rowSlice H (H.rows / P * i) (H.rows / P * (i + 1)) := by
  have : (Split_HyperGraph H P).getD i default
      = ((List.range P).map fun t =>
          if t = P - 1 then rowSlice H (H.rows / P * t) H.rows
          else rowSlice H (H.rows / P * t) (H.rows / P * (t + 1))).getD i default := rfl
  rw [this, List.getD_eq_getElem?_getD, List.getElem?_map, List.getElem?_range hi]
  rfl

/-- C2: for every operator `H` and partition count `P ≥ 1`, `Split_HyperGraph`
produces `P` row blocks, where block `i` holds the rows starting at
`i·(rows//P)` (of size `rows//P`, the last block absorbing the remainder up to
`rows`); concatenating the blocks in order reproduces `H` exactly, and
concatenating the per-block products `block·X` reproduces `H·X` exactly. -/
theorem c2_partition_reconstruction (H X : SMat) (P : ℕ) (hP : 1 ≤ P) :
    (Split_HyperGraph H P).length = P ∧
    (∀ i, i < P →
      ((Split_HyperGraph H P).getD i default).rows
          = (if i = P - 1 then H.rows - H.rows / P * i else H.rows / P) ∧
      ∀ r j, ((Split_HyperGraph H P).getD i default).entry r j
          = H.entry (H.rows / P * i + r) j) ∧
    ((vcatList (Split_HyperGraph H P)).rows = H.rows ∧
     (vcatList (Split_HyperGraph H P)).cols = H.cols ∧
     ∀ i j, i < H.rows → (vcatList (Split_HyperGraph H P)).entry i j = H.entry i j) ∧
    ((vcatList ((Split_HyperGraph H P).map fun b => b.mul X)).rows = H.rows ∧
     ∀ i j, i < H.rows →
       (vcatList ((Split_HyperGraph H P).map fun b => b.mul X)).entry i j
         = (H.mul X).entry i j) := by
  obtain ⟨hrows, hentry⟩ := split_reconstruct H P hP
  have hne : Split_HyperGraph H P ≠ [] := by
    intro hnil
    have hlen := split_length H P
    rw [hnil] at hlen
    simp at hlen
    omega
  refine ⟨split_length H P, ?_, ⟨hrows, vcatList_cols H.cols _ (split_cols H P) hne, hentry⟩, ?_⟩
  · intro i hi
    rw [split_getD H P i hi]
    by_cases h : i = P - 1
    · simp only [h, if_true]
      exact ⟨rfl, fun r j => rfl⟩
    · simp only [h, if_false]
      refine ⟨?_, fun r j => rfl⟩
      show H.rows / P * (i + 1) - H.rows / P * i = H.rows / P
      have hq : ∀ q : ℕ, q * (i + 1) - q * i = q := fun q => by rw [Nat.mul_succ]; omega
      exact hq (H.rows / P)
  · obtain ⟨mrows, mentry⟩ :=
      vcatList_map_mul X H.cols (Split_HyperGraph H P) (split_cols H P)
    refine ⟨by rw [mrows, hrows], fun i j hi => ?_⟩
    rw [mentry i j (by rw [hrows]; exact hi)]
    rw [SMat.mul_entry]
    refine Finset.sum_congr rfl fun k _ => ?_
    rw [hentry i k hi]

/-- Concrete 3-row operator used to instantiate the partition theorem. -/
def c2H : SMat := ⟨3, 2, fun i j => (i : ℚ) + 2 * j⟩

/-- Concrete dense factor used to instantiate the partition theorem. -/
def c2X : SMat := ⟨2, 2, fun i j => (i : ℚ) * j + 1⟩

theorem c2_witness :
    1 ≤ 2 ∧
    ((Split_HyperGraph c2H 2).length = 2 ∧
    (∀ i, i < 2 →
      ((Split_HyperGraph c2H 2).getD i default).rows
          = (if i = 2 - 1 then c2H.rows - c2H.rows / 2 * i else c2H.rows / 2) ∧
      ∀ r j, ((Split_HyperGraph c2H 2).getD i default).entry r j
          = c2H.entry (c2H.rows / 2 * i + r) j) ∧
    ((vcatList (Split_HyperGraph c2H 2)).rows = c2H.rows ∧
     (vcatList (Split_HyperGraph c2H 2)).cols = c2H.cols ∧
     ∀ i j, i < c2H.rows → (vcatList (Split_HyperGraph c2H 2)).entry i j = c2H.entry i j) ∧
    ((vcatList ((Split_HyperGraph c2H 2).map fun b => b.mul c2X)).rows = c2H.rows ∧
     ∀ i j, i < c2H.rows →
       (vcatList ((Split_HyperGraph c2H 2).map fun b => b.mul c2X)).entry i j
         = (c2H.mul c2X).entry i j)) :=
  ⟨by decide, c2_partition_reconstruction c2H c2X 2 (by decide)⟩

theorem diags_mul_entry (n : ℕ) (d : ℕ → ℚ) (A : SMat) (i j : ℕ) (hi : i < n) :
    ((diags n d).mul A).entry i j = d i * A.entry i j := by
  show (∑ k ∈ Finset.range n, (if i = k then d i else 0) * A.entry k j) = _
  rw [Finset.sum_eq_single_of_mem i (Finset.mem_range.mpr hi)]
  · simp
  · intro b _ hb
    simp [Ne.symm hb]

theorem mul_diags_entry (A : SMat) (n : ℕ) (d : ℕ → ℚ) (i j : ℕ) (hj : j < n)
    (hc : A.cols = n) :
    (A.mul (diags n d)).entry i j = A.entry i j * d j := by
  show (∑ k ∈ Finset.range A.cols, A.entry i k * (if k = j then d k else 0)) = _
  rw [hc, Finset.sum_eq_single_of_mem j (Finset.mem_range.mpr hj)]
  · simp
  · intro b _ hb
    simp [hb]

theorem quad_entry (dv de : ℕ → ℚ) (H : SMat) (i j : ℕ) (hi : i < H.rows)
    (hj : j < H.rows) :
    (((((diags H.rows dv).mul H).mul (diags H.cols de)).mul H.transpose).mul
        (diags H.rows dv)).entry i j
      = dv i * (∑ k ∈ Finset.range H.cols, H.entry i k * de k * H.entry j k) * dv j := by
  rw [mul_diags_entry _ H.rows dv i j hj rfl]
  rw [SMat.mul_entry]
  rw [show (((diags H.rows dv).mul H).mul (diags H.cols de)).cols = H.cols from rfl]
  have hterm : ∀ k ∈ Finset.range H.cols,
      (((diags H.rows dv).mul H).mul (diags H.cols de)).entry i k * H.transpose.entry k j
        = dv i * (H.entry i k * de k * H.entry j k) := by
    intro k hk
    rw [mul_diags_entry ((diags H.rows dv).mul H) H.cols de i k (Finset.mem_range.mp hk) rfl]
    rw [diags_mul_entry H.rows dv H i k hi]
    show dv i * H.entry i k * de k * H.entry j k = _
    ring
  rw [Finset.sum_congr rfl hterm, ← Finset.mul_sum]

/-- C3: for every matrix `H` with nonnegative in-bounds entries, the
normalizer returns exactly `D_v·H·D_e·Hᵀ·D_v` where `D_v` has diagonal
`1/(s(row-sum)+ε)`, `D_e` has diagonal `1/(s(col-sum)+ε)`, and ε = 1e-8, so
that whenever the abstract square root `s` is nonnegative on nonnegative
inputs (as `np.sqrt` is) the denominators are nonzero even for zero-degree
rows or columns. -/
theorem c3_normalize_formula (s : ℚ → ℚ) (H : SMat)
    (hs : ∀ x, 0 ≤ x → 0 ≤ s x)
    (hH : ∀ i, i < H.rows → ∀ j, j < H.cols → 0 ≤ H.entry i j) :
    (∀ i, i < H.rows → s (rowSum H i) + eps ≠ 0) ∧
    (∀ j, j < H.cols → s (colSum H j) + eps ≠ 0) ∧
    (normalize_HyperGraph s H).rows = H.rows ∧
    (normalize_HyperGraph s H).cols = H.rows ∧
    ∀ i j, i < H.rows → j < H.rows →
      (normalize_HyperGraph s H).entry i j
        = 1 / (s (rowSum H i) + eps) *
            (∑ k ∈ Finset.range H.cols,
              H.entry i k * (1 / (s (colSum H k) + eps)) * H.entry j k) *
          (1 / (s (rowSum H j) + eps)) := by
  have heps : (0 : ℚ) < eps := by norm_num [eps]
  have hv : ∀ i, i < H.rows → s (rowSum H i) + eps ≠ 0 := by
    intro i hi
    have h1 : 0 ≤ rowSum H i :=
      Finset.sum_nonneg fun j hj => hH i hi j (Finset.mem_range.mp hj)
    have h2 : 0 ≤ s (rowSum H i) := hs _ h1
    positivity
  have he : ∀ j, j < H.cols → s (colSum H j) + eps ≠ 0 := by
    intro j hj
    have h1 : 0 ≤ colSum H j :=
      Finset.sum_nonneg fun i hi => hH i (Finset.mem_range.mp hi) j hj
    have h2 : 0 ≤ s (colSum H j) := hs _ h1
    positivity
  refine ⟨hv, he, rfl, rfl, fun i j hi hj => ?_⟩
  show (((((diags H.rows fun i => 1 / (s (rowSum H i) + eps)).mul H).mul
      (diags H.cols fun j => 1 / (s (colSum H j) + eps))).mul H.transpose).mul
      (diags H.rows fun i => 1 / (s (rowSum H i) + eps))).entry i j = _
  exact quad_entry _ _ H i j hi hj

/-- Concrete 2-by-3 incidence structure used to instantiate the normalization
theorem; its second row and third column have degree zero. -/
def c3H : SMat := ⟨2, 3, fun i j => if i = 0 ∧ j < 2 then 2 else 0⟩

theorem c3_witness :
    ((∀ x : ℚ, 0 ≤ x → 0 ≤ x) ∧
     (∀ i, i < c3H.rows → ∀ j, j < c3H.cols → 0 ≤ c3H.entry i j)) ∧
    ((∀ i, i < c3H.rows → (fun x : ℚ => x) (rowSum c3H i) + eps ≠ 0) ∧
    (∀ j, j < c3H.cols → (fun x : ℚ => x) (colSum c3H j) + eps ≠ 0) ∧
    (normalize_HyperGraph (fun x : ℚ => x) c3H).rows = c3H.rows ∧
    (normalize_HyperGraph (fun x : ℚ => x) c3H).cols = c3H.rows ∧
    ∀ i j, i < c3H.rows → j < c3H.rows →
      (normalize_HyperGraph (fun x : ℚ => x) c3H).entry i j
        = 1 / ((fun x : ℚ => x) (rowSum c3H i) + eps) *
            (∑ k ∈ Finset.range c3H.cols,
              c3H.entry i k * (1 / ((fun x : ℚ => x) (colSum c3H k) + eps)) * c3H.entry j k) *
          (1 / ((fun x : ℚ => x) (rowSum c3H j) + eps))) :=
  ⟨⟨fun _ hx => hx, by decide⟩,
   c3_normalize_formula (fun x => x) c3H (fun _ hx => hx) (by decide)⟩

/-- C4: for every user-bundle relation and nonnegative threshold τ, each entry
of the thresholded co-occurrence products `ub·ubᵀ` (user side) and `ubᵀ·ub`
(bundle side) is 1 exactly when the count strictly exceeds τ and 0 otherwise;
entries outside the structural support stay 0; and when τ dominates every
in-bounds count the corresponding similarity relation is all-zero rather than
an error. -/
theorem c4_similarity_threshold (ub : SMat) (τ : ℚ) (hτ : 0 ≤ τ) :
    ((binarizeMat τ (ub.mul ub.transpose)).rows = ub.rows ∧
     (binarizeMat τ (ub.mul ub.transpose)).cols = ub.rows ∧
     (binarizeMat τ (ub.transpose.mul ub)).rows = ub.cols ∧
     (binarizeMat τ (ub.transpose.mul ub)).cols = ub.cols) ∧
    (∀ i j, (binarizeMat τ (ub.mul ub.transpose)).entry i j
        = if τ < (ub.mul ub.transpose).entry i j then 1 else 0) ∧
    (∀ i j, (binarizeMat τ (ub.transpose.mul ub)).entry i j
        = if τ < (ub.transpose.mul ub).entry i j then 1 else 0) ∧
    (∀ i j, (ub.mul ub.transpose).entry i j = 0 →
        (binarizeMat τ (ub.mul ub.transpose)).entry i j = 0) ∧
    (∀ i j, (ub.transpose.mul ub).entry i j = 0 →
        (binarizeMat τ (ub.transpose.mul ub)).entry i j = 0) ∧
    ((∀ i, i < ub.rows → ∀ j, j < ub.rows → (ub.mul ub.transpose).entry i j ≤ τ) →
      ∀ i, i < ub.rows → ∀ j, j < ub.rows →
        (binarizeMat τ (ub.mul ub.transpose)).entry i j = 0) ∧
    ((∀ i, i < ub.cols → ∀ j, j < ub.cols → (ub.transpose.mul ub).entry i j ≤ τ) →
      ∀ i, i < ub.cols → ∀ j, j < ub.cols →
        (binarizeMat τ (ub.transpose.mul ub)).entry i j = 0) := by
  have hbin : ∀ M : SMat, ∀ i j, (binarizeMat τ M).entry i j
      = if τ < M.entry i j then 1 else 0 := by
    intro M i j
    show (if M.entry i j = 0 then 0 else if τ < M.entry i j then 1 else 0) = _
    by_cases h : M.entry i j = 0
    · rw [if_pos h, h, if_neg (not_lt.mpr hτ)]
    · rw [if_neg h]
  refine ⟨⟨rfl, rfl, rfl, rfl⟩, hbin _, hbin _, ?_, ?_, ?_, ?_⟩
  · intro i j h
    show (if (ub.mul ub.transpose).entry i j = 0 then (0 : ℚ) else _) = 0
    rw [if_pos h]
  · intro i j h
    show (if (ub.transpose.mul ub).entry i j = 0 then (0 : ℚ) else _) = 0
    rw [if_pos h]
  · intro hle i hi j hj
    rw [hbin _ i j, if_neg (not_lt.mpr (hle i hi j hj))]
  · intro hle i hi j hj
    rw [hbin _ i j, if_neg (not_lt.mpr (hle i hi j hj))]

/-- Concrete user-bundle relation `[[2,0],[0,20]]` from the specification
scenario, used to instantiate the thresholding theorem at τ = 10. -/
def c4ub : SMat := ⟨2, 2, fun i j => if i = 0 ∧ j = 0 then 2 else if i = 1 ∧ j = 1 then 20 else 0⟩

theorem c4_witness :
    (0 : ℚ) ≤ 10 ∧
    (((binarizeMat 10 (c4ub.mul c4ub.transpose)).rows = c4ub.rows ∧
     (binarizeMat 10 (c4ub.mul c4ub.transpose)).cols = c4ub.rows ∧
     (binarizeMat 10 (c4ub.transpose.mul c4ub)).rows = c4ub.cols ∧
     (binarizeMat 10 (c4ub.transpose.mul c4ub)).cols = c4ub.cols) ∧
    (∀ i j, (binarizeMat 10 (c4ub.mul c4ub.transpose)).entry i j
        = if 10 < (c4ub.mul c4ub.transpose).entry i j then 1 else 0) ∧
    (∀ i j, (binarizeMat 10 (c4ub.transpose.mul c4ub)).entry i j
        = if 10 < (c4ub.transpose.mul c4ub).entry i j then 1 else 0) ∧
    (∀ i j, (c4ub.mul c4ub.transpose).entry i j = 0 →
        (binarizeMat 10 (c4ub.mul c4ub.transpose)).entry i j = 0) ∧
    (∀ i j, (c4ub.transpose.mul c4ub).entry i j = 0 →
        (binarizeMat 10 (c4ub.transpose.mul c4ub)).entry i j = 0) ∧
    ((∀ i, i < c4ub.rows → ∀ j, j < c4ub.rows →
        (c4ub.mul c4ub.transpose).entry i j ≤ 10) →
      ∀ i, i < c4ub.rows → ∀ j, j < c4ub.rows →
        (binarizeMat 10 (c4ub.mul c4ub.transpose)).entry i j = 0) ∧
    ((∀ i, i < c4ub.cols → ∀ j, j < c4ub.cols →
        (c4ub.transpose.mul c4ub).entry i j ≤ 10) →
      ∀ i, i < c4ub.cols → ∀ j, j < c4ub.cols →
        (binarizeMat 10 (c4ub.transpose.mul c4ub)).entry i j = 0)) :=
  ⟨by norm_num, c4_similarity_threshold c4ub 10 (by norm_num)⟩

/-- C9: for every previously computed feature pair and every batch of user
indices, `evaluate` returns an `n × |B|` matrix whose `(k, b)` entry is the
dot product of the feature row of user `users k` with the feature row of
bundle `b`, covering every bundle row in index order. -/
theorem c9_evaluate_full_catalog (uf bf : SMat) (n : ℕ) (users : ℕ → ℕ) :
    (SCHBR.evaluate (uf, bf) n users).rows = n ∧
    (SCHBR.evaluate (uf, bf) n users).cols = bf.rows ∧
    ∀ k b, (SCHBR.evaluate (uf, bf) n users).entry k b
      = ∑ j ∈ Finset.range uf.cols, uf.entry (users k) j * bf.entry b j := by
  exact ⟨rfl, rfl, fun k b => rfl⟩

theorem propagate_fst_entry (m : SCHBR) (drop : SMat → SMat) (i j : ℕ) :
    (m.propagate drop).1.entry i j
      = (m.users_feature.vcat m.bundles_feature).entry (0 + i) j / 2
        + (drop (vcatList (m.atom_graph.map fun G =>
            G.mul (m.users_feature.vcat m.bundles_feature)))).entry (0 + i) j / 2 := rfl

theorem propagate_snd_entry (m : SCHBR) (drop : SMat → SMat) (i j : ℕ) :
    (m.propagate drop).2.entry i j
      = (m.users_feature.vcat m.bundles_feature).entry (m.num_users + i) j / 2
        + (drop (vcatList (m.atom_graph.map fun G =>
            G.mul (m.users_feature.vcat m.bundles_feature)))).entry (m.num_users + i) j / 2 :=
  rfl

/-- C6: propagate returns `all_embeds` split into the first `num_users` rows
and the following `num_bundles` rows, where
`all_embeds = embed_0/2 + drop(embed_1)/2` with `embed_0` the stacked
embedding tables and `embed_1` the partitioned operator `L` applied to
`embed_0`; when `L` is the zero matrix and dropout is the identity, every
returned entry is exactly half the corresponding raw embedding entry. -/
theorem c6_propagate_combine (m : SCHBR) (drop : SMat → SMat) (L : SMat) (P : ℕ)
    (hatom : m.atom_graph = Split_HyperGraph L P) (hP : 1 ≤ P)
    (hdrop : ∀ A, drop A = A)
    (hU : m.num_users = m.users_feature.rows)
    (hB : m.num_bundles = m.bundles_feature.rows)
    (hLrows : L.rows = m.users_feature.rows + m.bundles_feature.rows) :
    ((m.propagate drop).1.rows = m.num_users ∧
     (m.propagate drop).2.rows = m.num_bundles) ∧
    (∀ i, i < m.num_users → ∀ j,
       (m.propagate drop).1.entry i j
         = (m.users_feature.vcat m.bundles_feature).entry i j / 2
           + (L.mul (m.users_feature.vcat m.bundles_feature)).entry i j / 2) ∧
    (∀ i, i < m.num_bundles → ∀ j,
       (m.propagate drop).2.entry i j
         = (m.users_feature.vcat m.bundles_feature).entry (m.num_users + i) j / 2
           + (L.mul (m.users_feature.vcat m.bundles_feature)).entry (m.num_users + i) j / 2) ∧
    ((∀ i, i < L.rows → ∀ j, j < L.cols → L.entry i j = 0) →
      (∀ i, i < m.num_users → ∀ j,
        (m.propagate drop).1.entry i j = m.users_feature.entry i j / 2) ∧
      (∀ i, i < m.num_bundles → ∀ j,
        (m.propagate drop).2.entry i j = m.bundles_feature.entry i j / 2)) := by
  have hsplit := split_reconstruct L P hP
  have hmul := vcatList_map_mul (m.users_feature.vcat m.bundles_feature) L.cols
      (Split_HyperGraph L P) (split_cols L P)
  have hemb1 : ∀ i j, i < L.rows →
      (vcatList ((Split_HyperGraph L P).map fun G =>
          G.mul (m.users_feature.vcat m.bundles_feature))).entry i j
        = (L.mul (m.users_feature.vcat m.bundles_feature)).entry i j := by
    intro i j hi
    rw [hmul.2 i j (by rw [hsplit.1]; exact hi)]
    rw [SMat.mul_entry]
    exact Finset.sum_congr rfl fun k _ => by rw [hsplit.2 i k hi]
  have h1v : ∀ i, i < m.num_users → ∀ j,
      (m.propagate drop).1.entry i j
        = (m.users_feature.vcat m.bundles_feature).entry i j / 2
          + (L.mul (m.users_feature.vcat m.bundles_feature)).entry i j / 2 := by
    intro i hi j
    rw [propagate_fst_entry, Nat.zero_add, hdrop, hatom, hemb1 i j (by omega)]
  have h2v : ∀ i, i < m.num_bundles → ∀ j,
      (m.propagate drop).2.entry i j
        = (m.users_feature.vcat m.bundles_feature).entry (m.num_users + i) j / 2
          + (L.mul (m.users_feature.vcat m.bundles_feature)).entry (m.num_users + i) j / 2 := by
    intro i hi j
    rw [propagate_snd_entry, hdrop, hatom, hemb1 (m.num_users + i) j (by omega)]
  refine ⟨⟨?_, ?_⟩, h1v, h2v, fun hzero => ⟨?_, ?_⟩⟩
  · show m.num_users - 0 = m.num_users
    omega
  · show m.num_users + m.num_bundles - m.num_users = m.num_bundles
    omega
  · intro i hi j
    rw [h1v i hi j]
    have hz : (L.mul (m.users_feature.vcat m.bundles_feature)).entry i j = 0 := by
      rw [SMat.mul_entry]
      refine Finset.sum_eq_zero fun k hk => ?_
      rw [hzero i (by omega) k (Finset.mem_range.mp hk)]
      ring
    rw [hz, SMat.vcat_entry_left _ _ _ _ (show i < m.users_feature.rows by omega)]
    norm_num
  · intro i hi j
    rw [h2v i hi j]
    have hz : (L.mul (m.users_feature.vcat m.bundles_feature)).entry (m.num_users + i) j
        = 0 := by
      rw [SMat.mul_entry]
      refine Finset.sum_eq_zero fun k hk => ?_
      rw [hzero (m.num_users + i) (by omega) k (Finset.mem_range.mp hk)]
      ring
    rw [hz, SMat.vcat_entry_right _ _ _ _ (show m.users_feature.rows ≤ m.num_users + i by omega)]
    rw [show m.num_users + i - m.users_feature.rows = i by omega]
    norm_num

/-- Concrete zero operator used to instantiate the propagation theorem. -/
def c6L : SMat := ⟨3, 3, fun _ _ => 0⟩

/-- Concrete model state over the zero operator: two users, one bundle,
all-ones embedding tables, λ = 1. -/
def c6m : SCHBR :=
  ⟨2, 1, 1, Split_HyperGraph c6L 2, ⟨2, 1, fun _ _ => 1⟩, ⟨1, 1, fun _ _ => 1⟩,
   ⟨1, 1, fun _ _ => 0⟩, 1⟩

theorem c6_witness :
    (c6m.atom_graph = Split_HyperGraph c6L 2 ∧ 1 ≤ 2 ∧
     (∀ A : SMat, (fun A : SMat => A) A = A) ∧
     c6m.num_users = c6m.users_feature.rows ∧
     c6m.num_bundles = c6m.bundles_feature.rows ∧
     c6L.rows = c6m.users_feature.rows + c6m.bundles_feature.rows) ∧
    (((c6m.propagate fun A => A).1.rows = c6m.num_users ∧
     (c6m.propagate fun A => A).2.rows = c6m.num_bundles) ∧
    (∀ i, i < c6m.num_users → ∀ j,
       (c6m.propagate fun A => A).1.entry i j
         = (c6m.users_feature.vcat c6m.bundles_feature).entry i j / 2
           + (c6L.mul (c6m.users_feature.vcat c6m.bundles_feature)).entry i j / 2) ∧
    (∀ i, i < c6m.num_bundles → ∀ j,
       (c6m.propagate fun A => A).2.entry i j
         = (c6m.users_feature.vcat c6m.bundles_feature).entry (c6m.num_users + i) j / 2
           + (c6L.mul (c6m.users_feature.vcat c6m.bundles_feature)).entry
               (c6m.num_users + i) j / 2) ∧
    ((∀ i, i < c6L.rows → ∀ j, j < c6L.cols → c6L.entry i j = 0) →
      (∀ i, i < c6m.num_users → ∀ j,
        (c6m.propagate fun A => A).1.entry i j = c6m.users_feature.entry i j / 2) ∧
      (∀ i, i < c6m.num_bundles → ∀ j,
        (c6m.propagate fun A => A).2.entry i j = c6m.bundles_feature.entry i j / 2))) :=
  ⟨⟨rfl, by decide, fun A => rfl, by decide, by decide, by decide⟩,
   c6_propagate_combine c6m (fun A => A) c6L 2 rfl (by decide) (fun A => rfl)
     (by decide) (by decide) (by decide)⟩

theorem SMat.hcat_entry_left (A B : SMat) (i j : ℕ) (h : j < A.cols) :
    (A.hcat B).entry i j = A.entry i j := by
  simp [SMat.hcat, h]

theorem SMat.hcat_entry_right (A B : SMat) (i j : ℕ) (h : A.cols ≤ j) :
    (A.hcat B).entry i j = B.entry i (j - A.cols) := by
  simp [SMat.hcat, Nat.not_lt.mpr h]

theorem mix_ok (ui bi ub : SMat) (τ : ℚ) (h3 : ui.cols = bi.cols)
    (h12 : ui.rows + bi.rows = ub.rows + ub.cols) :
    mix_Hypergraph (ui, bi, ub) τ = Except.ok
      ((ui.vcat bi).hcat
        (((binarizeMat τ (ub.mul ub.transpose)).vcat ub.transpose).hcat
          (ub.vcat (binarizeMat τ (ub.transpose.mul ub))))) := by
  have e1 : vstackE ui bi = .ok (ui.vcat bi) := by rw [vstackE, if_pos h3]
  have e2 : vstackE (binarizeMat τ (ub.mul ub.transpose)) ub.transpose
      = .ok ((binarizeMat τ (ub.mul ub.transpose)).vcat ub.transpose) := by
    rw [vstackE, if_pos]
    exact rfl
  have e3 : vstackE ub (binarizeMat τ (ub.transpose.mul ub))
      = .ok (ub.vcat (binarizeMat τ (ub.transpose.mul ub))) := by
    rw [vstackE, if_pos]
    exact rfl
  have e4 : hstackE ((binarizeMat τ (ub.mul ub.transpose)).vcat ub.transpose)
      (ub.vcat (binarizeMat τ (ub.transpose.mul ub)))
      = .ok (((binarizeMat τ (ub.mul ub.transpose)).vcat ub.transpose).hcat
          (ub.vcat (binarizeMat τ (ub.transpose.mul ub)))) := by
    rw [hstackE, if_pos]
    exact rfl
  have e5 : hstackE (ui.vcat bi)
      (((binarizeMat τ (ub.mul ub.transpose)).vcat ub.transpose).hcat
        (ub.vcat (binarizeMat τ (ub.transpose.mul ub))))
      = .ok ((ui.vcat bi).hcat
          (((binarizeMat τ (ub.mul ub.transpose)).vcat ub.transpose).hcat
            (ub.vcat (binarizeMat τ (ub.transpose.mul ub))))) := by
    rw [hstackE, if_pos]
    exact h12
  simp only [mix_Hypergraph]
  rw [e1, e2, e3]
  show (hstackE ((binarizeMat τ (ub.mul ub.transpose)).vcat ub.transpose)
      (ub.vcat (binarizeMat τ (ub.transpose.mul ub))) >>= fun H_ub =>
        hstackE (ui.vcat bi) H_ub) = _
  rw [e4]
  exact e5

/-- C5: for every dimension-consistent triple of raw relations, the incidence
structure built by `mix_Hypergraph` is the horizontal concatenation of
`vstack(ui, bi)` with `hstack(vstack(uu, ubᵀ), vstack(ub, bb))`: it has
`|U|+|B|` rows and `|I|+|U|+|B|` columns and carries the five blocks in
exactly this layout. -/
theorem c5_block_layout (ui bi ub : SMat) (τ : ℚ)
    (h1 : ui.rows = ub.rows) (h2 : bi.rows = ub.cols) (h3 : ui.cols = bi.cols) :
    ∃ H, mix_Hypergraph (ui, bi, ub) τ = Except.ok H ∧
      H.rows = ub.rows + ub.cols ∧
      H.cols = ui.cols + (ub.rows + ub.cols) ∧
      (∀ i, i < ub.rows → ∀ j, j < ui.cols → H.entry i j = ui.entry i j) ∧
      (∀ i, i < ub.cols → ∀ j, j < ui.cols → H.entry (ub.rows + i) j = bi.entry i j) ∧
      (∀ i, i < ub.rows → ∀ j, j < ub.rows →
        H.entry i (ui.cols + j) = (binarizeMat τ (ub.mul ub.transpose)).entry i j) ∧
      (∀ i, i < ub.cols → ∀ j, j < ub.rows →
        H.entry (ub.rows + i) (ui.cols + j) = ub.entry j i) ∧
      (∀ i, i < ub.rows → ∀ j, j < ub.cols →
        H.entry i (ui.cols + (ub.rows + j)) = ub.entry i j) ∧
      (∀ i, i < ub.cols → ∀ j, j < ub.cols →
        H.entry (ub.rows + i) (ui.cols + (ub.rows + j))
          = (binarizeMat τ (ub.transpose.mul ub)).entry i j) := by
  refine ⟨_, mix_ok ui bi ub τ h3 (by omega), ?_, rfl, ?_, ?_, ?_, ?_, ?_, ?_⟩
  · show ui.rows + bi.rows = ub.rows + ub.cols
    omega
  · intro i hi j hj
    rw [SMat.hcat_entry_left (ui.vcat bi) _ i j hj]
    rw [SMat.vcat_entry_left ui bi i j (show i < ui.rows by omega)]
  · intro i hi j hj
    rw [SMat.hcat_entry_left (ui.vcat bi) _ (ub.rows + i) j hj]
    rw [SMat.vcat_entry_right ui bi (ub.rows + i) j (show ui.rows ≤ ub.rows + i by omega)]
    rw [show ub.rows + i - ui.rows = i by omega]
  · intro i hi j hj
    rw [SMat.hcat_entry_right (ui.vcat bi) _ i (ui.cols + j) (Nat.le_add_right ui.cols j)]
    rw [show (ui.vcat bi).cols = ui.cols from rfl]
    rw [show ui.cols + j - ui.cols = j by omega]
    rw [SMat.hcat_entry_left ((binarizeMat τ (ub.mul ub.transpose)).vcat ub.transpose)
      _ i j hj]
    rw [SMat.vcat_entry_left (binarizeMat τ (ub.mul ub.transpose)) ub.transpose i j hi]
  · intro i hi j hj
    rw [SMat.hcat_entry_right (ui.vcat bi) _ (ub.rows + i) (ui.cols + j)
      (Nat.le_add_right ui.cols j)]
    rw [show (ui.vcat bi).cols = ui.cols from rfl]
    rw [show ui.cols + j - ui.cols = j by omega]
    rw [SMat.hcat_entry_left ((binarizeMat τ (ub.mul ub.transpose)).vcat ub.transpose)
      _ (ub.rows + i) j hj]
    rw [SMat.vcat_entry_right (binarizeMat τ (ub.mul ub.transpose)) ub.transpose
      (ub.rows + i) j (Nat.le_add_right ub.rows i)]
    rw [show (binarizeMat τ (ub.mul ub.transpose)).rows = ub.rows from rfl]
    rw [show ub.rows + i - ub.rows = i by omega]
    rfl
  · intro i hi j hj
    rw [SMat.hcat_entry_right (ui.vcat bi) _ i (ui.cols + (ub.rows + j))
      (Nat.le_add_right ui.cols (ub.rows + j))]
    rw [show (ui.vcat bi).cols = ui.cols from rfl]
    rw [show ui.cols + (ub.rows + j) - ui.cols = ub.rows + j by omega]
    rw [SMat.hcat_entry_right ((binarizeMat τ (ub.mul ub.transpose)).vcat ub.transpose)
      _ i (ub.rows + j) (Nat.le_add_right ub.rows j)]
    rw [show ((binarizeMat τ (ub.mul ub.transpose)).vcat ub.transpose).cols = ub.rows
      from rfl]
    rw [show ub.rows + j - ub.rows = j by omega]
    rw [SMat.vcat_entry_left ub (binarizeMat τ (ub.transpose.mul ub)) i j hi]
  · intro i hi j hj
    rw [SMat.hcat_entry_right (ui.vcat bi) _ (ub.rows + i) (ui.cols + (ub.rows + j))
      (Nat.le_add_right ui.cols (ub.rows + j))]
    rw [show (ui.vcat bi).cols = ui.cols from rfl]
    rw [show ui.cols + (ub.rows + j) - ui.cols = ub.rows + j by omega]
    rw [SMat.hcat_entry_right ((binarizeMat τ (ub.mul ub.transpose)).vcat ub.transpose)
      _ (ub.rows + i) (ub.rows + j) (Nat.le_add_right ub.rows j)]
    rw [show ((binarizeMat τ (ub.mul ub.transpose)).vcat ub.transpose).cols = ub.rows
      from rfl]
    rw [show ub.rows + j - ub.rows = j by omega]
    rw [SMat.vcat_entry_right ub (binarizeMat τ (ub.transpose.mul ub)) (ub.rows + i) j
      (Nat.le_add_right ub.rows i)]
    rw [show ub.rows + i - ub.rows = i by omega]

/-- Concrete user-item relation (one user, one item). -/
def c5ui : SMat := ⟨1, 1, fun _ _ => 1⟩

/-- Concrete bundle-item relation (two bundles, one item). -/
def c5bi : SMat := ⟨2, 1, fun i _ => if i = 0 then 1 else 0⟩

/-- Concrete user-bundle relation (one user, two bundles). -/
def c5ub : SMat := ⟨1, 2, fun _ j => if j = 0 then 1 else 0⟩

theorem c5_witness :
    (c5ui.rows = c5ub.rows ∧ c5bi.rows = c5ub.cols ∧ c5ui.cols = c5bi.cols) ∧
    (∃ H, mix_Hypergraph (c5ui, c5bi, c5ub) 10 = Except.ok H ∧
      H.rows = c5ub.rows + c5ub.cols ∧
      H.cols = c5ui.cols + (c5ub.rows + c5ub.cols) ∧
      (∀ i, i < c5ub.rows → ∀ j, j < c5ui.cols → H.entry i j = c5ui.entry i j) ∧
      (∀ i, i < c5ub.cols → ∀ j, j < c5ui.cols →
        H.entry (c5ub.rows + i) j = c5bi.entry i j) ∧
      (∀ i, i < c5ub.rows → ∀ j, j < c5ub.rows →
        H.entry i (c5ui.cols + j) = (binarizeMat 10 (c5ub.mul c5ub.transpose)).entry i j) ∧
      (∀ i, i < c5ub.cols → ∀ j, j < c5ub.rows →
        H.entry (c5ub.rows + i) (c5ui.cols + j) = c5ub.entry j i) ∧
      (∀ i, i < c5ub.rows → ∀ j, j < c5ub.cols →
        H.entry i (c5ui.cols + (c5ub.rows + j)) = c5ub.entry i j) ∧
      (∀ i, i < c5ub.cols → ∀ j, j < c5ub.cols →
        H.entry (c5ub.rows + i) (c5ui.cols + (c5ub.rows + j))
          = (binarizeMat 10 (c5ub.transpose.mul c5ub)).entry i j)) :=
  ⟨⟨by decide, by decide, by decide⟩,
   c5_block_layout c5ui c5bi c5ub 10 (by decide) (by decide) (by decide)⟩

theorem mix_error_iff (ui bi ub : SMat) (τ : ℚ) :
    (mix_Hypergraph (ui, bi, ub) τ).toOption = none
      ↔ (ui.cols ≠ bi.cols ∨ ui.rows + bi.rows ≠ ub.rows + ub.cols) := by
  have herr1 : ui.cols ≠ bi.cols →
      mix_Hypergraph (ui, bi, ub) τ = .error "vstack: incompatible dimensions" := by
    intro h
    simp only [mix_Hypergraph]
    rw [vstackE, if_neg h]
    rfl
  have herr2 : ui.cols = bi.cols → ui.rows + bi.rows ≠ ub.rows + ub.cols →
      mix_Hypergraph (ui, bi, ub) τ = .error "hstack: incompatible dimensions" := by
    intro h3 h12
    have e1 : vstackE ui bi = .ok (ui.vcat bi) := by rw [vstackE, if_pos h3]
    have e2 : vstackE (binarizeMat τ (ub.mul ub.transpose)) ub.transpose
        = .ok ((binarizeMat τ (ub.mul ub.transpose)).vcat ub.transpose) := by
      rw [vstackE, if_pos]
      exact rfl
    have e3 : vstackE ub (binarizeMat τ (ub.transpose.mul ub))
        = .ok (ub.vcat (binarizeMat τ (ub.transpose.mul ub))) := by
      rw [vstackE, if_pos]
      exact rfl
    have e4 : hstackE ((binarizeMat τ (ub.mul ub.transpose)).vcat ub.transpose)
        (ub.vcat (binarizeMat τ (ub.transpose.mul ub)))
        = .ok (((binarizeMat τ (ub.mul ub.transpose)).vcat ub.transpose).hcat
            (ub.vcat (binarizeMat τ (ub.transpose.mul ub)))) := by
      rw [hstackE, if_pos]
      exact rfl
    have e5 : hstackE (ui.vcat bi)
        (((binarizeMat τ (ub.mul ub.transpose)).vcat ub.transpose).hcat
          (ub.vcat (binarizeMat τ (ub.transpose.mul ub))))
        = .error "hstack: incompatible dimensions" := by
      rw [hstackE, if_neg]
      exact h12
    simp only [mix_Hypergraph]
    rw [e1, e2, e3]
    show (hstackE ((binarizeMat τ (ub.mul ub.transpose)).vcat ub.transpose)
        (ub.vcat (binarizeMat τ (ub.transpose.mul ub))) >>= fun H_ub =>
          hstackE (ui.vcat bi) H_ub) = _
    rw [e4]
    exact e5
  constructor
  · intro hnone
    by_contra hrhs
    push_neg at hrhs
    rw [mix_ok ui bi ub τ hrhs.1 hrhs.2] at hnone
    exact Option.noConfusion hnone
  · intro h
    rcases h with h | h
    · rw [herr1 h]
      rfl
    · by_cases hc : ui.cols = bi.cols
      · rw [herr2 hc h]
        rfl
      · rw [herr1 hc]
        rfl

/-- C8 (amended): model construction fails with a dimension error exactly when
the item-column counts of the two item relations differ, or the total node
count `ui.rows + bi.rows` differs from `ub.rows + ub.cols`; other mismatched
triples (e.g. `ui.rows ≠ ub.rows` compensated by `bi.rows ≠ ub.cols`)
construct a model silently. -/
theorem c8_construction_error_iff (ui bi ub : SMat) (τ : ℚ) (s : ℚ → ℚ) (l2 : ℚ)
    (u0 b0 bd0 : SMat) :
    ((mix_Hypergraph (ui, bi, ub) τ).toOption = none
      ↔ (ui.cols ≠ bi.cols ∨ ui.rows + bi.rows ≠ ub.rows + ub.cols)) ∧
    ((SCHBR.init (ui, bi, ub) s l2 u0 b0 bd0).toOption = none
      ↔ (ui.cols ≠ bi.cols ∨ ui.rows + bi.rows ≠ ub.rows + ub.cols)) := by
  refine ⟨mix_error_iff ui bi ub τ, ?_⟩
  have hinit : (SCHBR.init (ui, bi, ub) s l2 u0 b0 bd0).toOption = none
      ↔ (mix_Hypergraph (ui, bi, ub) 10).toOption = none := by
    simp only [SCHBR.init]
    cases hmix : mix_Hypergraph (ui, bi, ub) 10 with
    | error e => exact iff_of_true rfl rfl
    | ok H =>
      exact iff_of_false (fun h => Option.noConfusion h) (fun h => Option.noConfusion h)
  rw [hinit]
  exact mix_error_iff ui bi ub 10

/-- Concrete user-item relation with two rows: one row more than `c8ub`. -/
def c8ui : SMat := ⟨2, 1, fun _ _ => 1⟩

/-- Concrete bundle-item relation with one row: one row fewer than `c8ub` has
columns. -/
def c8bi : SMat := ⟨1, 1, fun _ _ => 1⟩

/-- Concrete user-bundle relation of shape 1 × 2. -/
def c8ub : SMat := ⟨1, 2, fun _ _ => 1⟩

/-- Counterexample to C8 as stated: a triple whose user and bundle row
counts are both inconsistent with the user-bundle relation, yet whose total
row count coincidentally matches, is accepted by the builder and the
constructor without any error. -/
theorem c8_counterexample :
    (c8ui.rows ≠ c8ub.rows ∧ c8bi.rows ≠ c8ub.cols) ∧
    (mix_Hypergraph (c8ui, c8bi, c8ub) 10).toOption.isSome = true ∧
    (SCHBR.init (c8ui, c8bi, c8ub) (fun x => x) 1 c8ui c8bi c8bi).toOption.isSome
      = true := by
  refine ⟨⟨by decide, by decide⟩, by decide, by decide⟩

/-- The incidence structure built from the concrete 1-user, 2-bundle, 1-item
relations. -/
def c7H : SMat := (mix_Hypergraph (c5ui, c5bi, c5ub) 10).toOption.getD default

/-- Counterexample to C7 as stated: for the concrete 1-user, 2-bundle,
1-item relations the normalized operator is (|U|+|B|)-square, not
(|U|+|B|+|I|) × (2|U|+2|B|). -/
theorem c7_counterexample :
    (normalize_HyperGraph (fun x => x) c7H).rows = c5ub.rows + c5ub.cols ∧
    (normalize_HyperGraph (fun x => x) c7H).cols = c5ub.rows + c5ub.cols ∧
    ¬((normalize_HyperGraph (fun x => x) c7H).rows
        = c5ub.rows + c5ub.cols + c5ui.cols ∧
      (normalize_HyperGraph (fun x => x) c7H).cols
        = c5ub.rows + c5ub.cols + c5ub.rows + c5ub.cols) := by
  refine ⟨by decide, by decide, ?_⟩
  intro h
  exact absurd h.1 (by decide)

/-- C7 (amended): for every dimension-consistent triple of raw relations and
any square-root stand-in, the normalized operator built from the mixed
incidence structure is square with side `|U| + |B|` (the node count), not
rectangular of shape `(|U|+|B|+|I|) × (2|U|+2|B|)`. -/
theorem c7_normalized_square (ui bi ub : SMat) (τ : ℚ) (s : ℚ → ℚ)
    (h1 : ui.rows = ub.rows) (h2 : bi.rows = ub.cols) (h3 : ui.cols = bi.cols) :
    ∃ H, mix_Hypergraph (ui, bi, ub) τ = Except.ok H ∧
      (normalize_HyperGraph s H).rows = ub.rows + ub.cols ∧
      (normalize_HyperGraph s H).cols = ub.rows + ub.cols := by
  refine ⟨_, mix_ok ui bi ub τ h3 (by omega), ?_, ?_⟩
  · show ui.rows + bi.rows = ub.rows + ub.cols
    omega
  · show ui.rows + bi.rows = ub.rows + ub.cols
    omega

theorem c7_witness :
    (c5ui.rows = c5ub.rows ∧ c5bi.rows = c5ub.cols ∧ c5ui.cols = c5bi.cols) ∧
    (∃ H, mix_Hypergraph (c5ui, c5bi, c5ub) 10 = Except.ok H ∧
      (normalize_HyperGraph (fun x => x) H).rows = c5ub.rows + c5ub.cols ∧
      (normalize_HyperGraph (fun x => x) H).cols = c5ub.rows + c5ub.cols) :=
  ⟨⟨by decide, by decide, by decide⟩,
   c7_normalized_square c5ui c5bi c5ub 10 (fun x => x) (by decide) (by decide) (by decide)⟩

/-- C1 (amended): the third output of `forward` is the regularization loss
computed from the full propagated feature tables, `λ·(sum of squares of all
UserFeature entries + sum of squares of all BundleFeature entries)`,
independent of the batch indices. -/
theorem c1_forward_regularizes_full (m : SCHBR) (drop : SMat → SMat)
    (nBatch nb : ℕ) (users : ℕ → ℕ) (bundles : ℕ → ℕ → ℕ) :
    (m.forward drop nBatch nb users bundles).2.2
      = m.embed_L2_norm * (sumSq (m.propagate drop).1 + sumSq (m.propagate drop).2) := rfl

instance : Inhabited SCHBR := ⟨⟨0, 0, 0, [], default, default, default, 0⟩⟩

/-- Zero 3-by-3 operator: valuewise this is exactly the normalized operator
the constructor builds from all-zero 2-user, 1-bundle, 1-item relations. -/
def c1L : SMat := ⟨3, 3, fun _ _ => 0⟩

/-- Sampled initial user table: two rows of ones. -/
def c1u0 : SMat := ⟨2, 1, fun _ _ => 1⟩

/-- Sampled initial bundle table: one row of ones. -/
def c1b0 : SMat := ⟨1, 1, fun _ _ => 1⟩

/-- Sampled score-bound vector. -/
def c1bd0 : SMat := ⟨1, 1, fun _ _ => 0⟩

/-- Concrete model state: two users, one bundle, the partitioned zero
operator, all-ones tables and λ = 1. -/
def c1m : SCHBR := ⟨2, 1, 1, Split_HyperGraph c1L 16, c1u0, c1b0, c1bd0, 1⟩

/-- Counterexample to C1 as stated: for the concrete zero-operator model and
a 1-user, 1-bundle batch, the loss returned by `forward` differs from λ times
the sum of squares of the gathered batch slices (it is λ times the sum of
squares of the full tables instead). -/
theorem c1_counterexample :
    (SCHBR.forward c1m (fun A => A) 1 1 (fun _ => 0) (fun _ _ => 0)).2.2
      ≠ c1m.embed_L2_norm *
          (sumSq (gatherRows (c1m.propagate fun A => A).1 1 fun _ => 0) +
           sumSq (gatherRows (c1m.propagate fun A => A).2 1 fun _ => 0)) := by
  have hsplit := split_reconstruct c1L 16 (by norm_num)
  have hmul := vcatList_map_mul (c1m.users_feature.vcat c1m.bundles_feature) c1L.cols
      (Split_HyperGraph c1L 16) (split_cols c1L 16)
  have hemb1 : ∀ i, i < 3 → ∀ j,
      (vcatList ((Split_HyperGraph c1L 16).map fun G =>
          G.mul (c1m.users_feature.vcat c1m.bundles_feature))).entry i j = 0 := by
    intro i hi j
    rw [hmul.2 i j (by rw [hsplit.1]; exact hi)]
    refine Finset.sum_eq_zero fun k hk => ?_
    rw [hsplit.2 i k hi]
    show (0 : ℚ) * _ = 0
    ring
  have he0 : ∀ i j, (c1m.users_feature.vcat c1m.bundles_feature).entry i j = 1 := by
    intro i j
    show (if i < c1u0.rows then c1u0.entry i j else c1b0.entry (i - c1u0.rows) j) = 1
    by_cases h : i < c1u0.rows <;> simp [h, c1u0, c1b0]
  have hfst : ∀ i, i < 2 → ∀ j, (c1m.propagate fun A => A).1.entry i j
      = 1 / 2 + 0 / 2 := by
    intro i hi j
    rw [propagate_fst_entry, Nat.zero_add]
    show (c1m.users_feature.vcat c1m.bundles_feature).entry i j / 2
        + (vcatList ((Split_HyperGraph c1L 16).map fun G =>
            G.mul (c1m.users_feature.vcat c1m.bundles_feature))).entry i j / 2 = _
    rw [he0 i j, hemb1 i (by omega) j]
  have hsnd : ∀ i, i < 1 → ∀ j, (c1m.propagate fun A => A).2.entry i j
      = 1 / 2 + 0 / 2 := by
    intro i hi j
    rw [propagate_snd_entry]
    show (c1m.users_feature.vcat c1m.bundles_feature).entry (2 + i) j / 2
        + (vcatList ((Split_HyperGraph c1L 16).map fun G =>
            G.mul (c1m.users_feature.vcat c1m.bundles_feature))).entry (2 + i) j / 2 = _
    rw [he0 (2 + i) j, hemb1 (2 + i) (by omega) j]
  have hforward : (SCHBR.forward c1m (fun A => A) 1 1 (fun _ => 0) (fun _ _ => 0)).2.2
      = c1m.embed_L2_norm
        * (sumSq (c1m.propagate fun A => A).1 + sumSq (c1m.propagate fun A => A).2) := rfl
  have hs1 : sumSq (c1m.propagate fun A => A).1 = (1 / 2 + 0 / 2 : ℚ) ^ 2 * 2 := by
    rw [sumSq]
    rw [show (c1m.propagate fun A => A).1.rows = 2 from rfl]
    rw [show (c1m.propagate fun A => A).1.cols = 1 from rfl]
    rw [Finset.sum_range_succ, Finset.sum_range_one]
    simp only [Finset.sum_range_one]
    rw [hfst 0 (by norm_num) 0, hfst 1 (by norm_num) 0]
    ring
  have hs2 : sumSq (c1m.propagate fun A => A).2 = (1 / 2 + 0 / 2 : ℚ) ^ 2 := by
    rw [sumSq]
    rw [show (c1m.propagate fun A => A).2.rows = 1 from rfl]
    rw [show (c1m.propagate fun A => A).2.cols = 1 from rfl]
    simp only [Finset.sum_range_one]
    rw [hsnd 0 (by norm_num) 0]
  have hg1 : sumSq (gatherRows (c1m.propagate fun A => A).1 1 fun _ => 0)
      = (1 / 2 + 0 / 2 : ℚ) ^ 2 := by
    rw [sumSq]
    rw [show (gatherRows (c1m.propagate fun A => A).1 1 fun _ => 0).rows = 1 from rfl]
    rw [show (gatherRows (c1m.propagate fun A => A).1 1 fun _ => 0).cols = 1 from rfl]
    simp only [Finset.sum_range_one]
    show (c1m.propagate fun A => A).1.entry 0 0 ^ 2 = _
    rw [hfst 0 (by norm_num) 0]
  have hg2 : sumSq (gatherRows (c1m.propagate fun A => A).2 1 fun _ => 0)
      = (1 / 2 + 0 / 2 : ℚ) ^ 2 := by
    rw [sumSq]
    rw [show (gatherRows (c1m.propagate fun A => A).2 1 fun _ => 0).rows = 1 from rfl]
    rw [show (gatherRows (c1m.propagate fun A => A).2 1 fun _ => 0).cols = 1 from rfl]
    simp only [Finset.sum_range_one]
    show (c1m.propagate fun A => A).2.entry 0 0 ^ 2 = _
    rw [hsnd 0 (by norm_num) 0]
  rw [hforward, hs1, hs2, hg1, hg2]
  show (1 : ℚ) * _ ≠ (1 : ℚ) * _
  norm_num

/-- C10: for every raw graph and every configuration, the constructor calls
the hypergraph builder with its default threshold 10 — when
`mix_Hypergraph raw 10` succeeds the model is built from exactly that
incidence structure (partitioned normalization of it), independent of the
other configuration values, and when it fails construction fails. -/
theorem c10_default_threshold (raw : SMat × SMat × SMat) (s : ℚ → ℚ) (l2 : ℚ)
    (u0 b0 bd0 : SMat) :
    (∀ H, mix_Hypergraph raw 10 = Except.ok H →
      SCHBR.init raw s l2 u0 b0 bd0 = Except.ok
        { num_users := raw.2.2.rows
          num_bundles := raw.2.2.cols
          num_items := raw.1.cols
          atom_graph := Split_HyperGraph (normalize_HyperGraph s H) 16
          users_feature := u0
          bundles_feature := b0
          user_bound := bd0
          embed_L2_norm := l2 }) ∧
    ((mix_Hypergraph raw 10).toOption = none →
      (SCHBR.init raw s l2 u0 b0 bd0).toOption = none) := by
  constructor
  · intro H hmix
    simp only [SCHBR.init]
    rw [hmix]
    rfl
  · intro hnone
    simp only [SCHBR.init]
    cases hmix : mix_Hypergraph raw 10 with
    | error e => rfl
    | ok H =>
      rw [hmix] at hnone
      exact Option.noConfusion hnone

/-- The incidence structure built with the default threshold from the
concrete 1-user, 2-bundle, 1-item relations. -/
def c10H : SMat := (mix_Hypergraph (c5ui, c5bi, c5ub) 10).toOption.getD default

theorem c10_witness :
    mix_Hypergraph (c5ui, c5bi, c5ub) 10 = Except.ok c10H ∧
    SCHBR.init (c5ui, c5bi, c5ub) (fun x => x) 1 c1u0 c1b0 c1bd0 = Except.ok
      { num_users := c5ub.rows
        num_bundles := c5ub.cols
        num_items := c5ui.cols
        atom_graph := Split_HyperGraph (normalize_HyperGraph (fun x => x) c10H) 16
        users_feature := c1u0
        bundles_feature := c1b0
        user_bound := c1bd0
        embed_L2_norm := 1 } :=
  ⟨rfl,
   (c10_default_threshold (c5ui, c5bi, c5ub) (fun x => x) 1 c1u0 c1b0 c1bd0).1 c10H rfl⟩
